import Mathlib

/-!
Verification development for the code-execution-engine repository.

JavaScript strings are modelled as `List Char` (`Str`), stateful services as
explicit state passing, and machine effects (filesystem, Docker, child
processes) as explicit outcome parameters.  Every definition is translated
from the repository sources:

* `src/src/services/judge.service.js`  — `JudgeService`
* `src/src/services/executor.service.js` — `ExecutorService` (Docker backend)
* `src/src/config.js` (second half) — `ProcessExecutor` (subprocess backend)
* `src/src/services/queue.service.js` — `QueueService`
* `src/sandbox/run.sh` — sandbox runner verdict classification
* `src/src/utils/file.util.js` — work-directory lifecycle
-/

namespace CodeExec

/-- JavaScript strings are modelled as lists of characters. -/
abbrev Str := List Char

/-- The closed set of verdict tags occurring in the system.  `OK`, `CE`,
`TLE`, `MLE`, `RE`, `IE` are produced by the executors; `AC`, `WA` by the
judge comparator; `SKIPPED` is pushed by `JudgeService.judge` for test cases
after a compilation error.  In the source these are string tags; the
inductive models exactly the strings that appear. -/
inductive Verdict where
  | OK | CE | TLE | MLE | RE | IE | AC | WA | SKIPPED
deriving DecidableEq, Repr

/-- The JavaScript whitespace set stripped by `String.prototype.trimEnd`:
WhiteSpace (TAB, VT, FF, SP, NBSP, ZWNBSP, Unicode Space_Separator) plus
LineTerminator (LF, CR, LS, PS). -/
def jsWhitespace (c : Char) : Bool :=
  c = ' ' || c = '\t' || c = '\n' || c = '\r' ||
  c = '\u000b' || c = '\u000c' || c = '\u00a0' || c = '\u1680' ||
  ('\u2000' ≤ c && c ≤ '\u200a') || c = '\u2028' || c = '\u2029' ||
  c = '\u202f' || c = '\u205f' || c = '\u3000' || c = '\ufeff'

/-- JavaScript `str.trimEnd()`: remove trailing whitespace. -/
def jsTrimEnd (l : Str) : Str :=
  (l.reverse.dropWhile jsWhitespace).reverse

/-- JavaScript `str.split("\n")` (note: `"".split("\n")` is `[""]`). -/
def splitNL : Str → List Str
  | [] => [[]]
  | c :: rest =>
    if c = '\n' then [] :: splitNL rest
    else
      match splitNL rest with
      | [] => [[c]]
      | h :: t => (c :: h) :: t

/-- JavaScript `lines.join("\n")`. -/
def joinNL : List Str → Str
  | [] => []
  | [l] => l
  | l :: ls => l ++ '\n' :: joinNL ls

/-- JavaScript `str.replace(/\r\n/g, "\n")`: left-to-right, non-overlapping
replacement of CRLF pairs by LF. -/
def replaceCRLF : Str → Str
  | [] => []
  | [c] => [c]
  | c1 :: c2 :: rest =>
    if c1 = '\r' ∧ c2 = '\n' then '\n' :: replaceCRLF rest
    else c1 :: replaceCRLF (c2 :: rest)

/-- `JudgeService._normalize` (judge.service.js lines 136-144):
`if (!str) return ""` then CRLF→LF, `trimEnd` each line, re-join, `trimEnd`
the whole string. -/
def normalizeOut (s : Str) : Str :=
  if s = [] then []
  else jsTrimEnd (joinNL ((splitNL (replaceCRLF s)).map jsTrimEnd))

/-- The normalisation procedure exactly as the specification words it
(spec §4.4): convert CRLF to LF; right-strip each line; right-strip the
whole string.  Declared separately from `normalizeOut` to compare the
specification against the source. -/
def specNormalize (s : Str) : Str :=
  let lfOnly := replaceCRLF s
  let stripped := (splitNL lfOnly).map jsTrimEnd
  jsTrimEnd (joinNL stripped)

/-- The result record returned by an executor for one run (executor.service.js
response object; the constant `language`/`timeLimit`/`memoryLimit` echo
fields are omitted as they carry no information). -/
structure RunResult where
  verdict : Verdict
  output : Str
  error : Str
  executionTime : Nat
  memoryUsed : Nat
  exitCode : Int
  wallTime : Nat
deriving DecidableEq, Repr

/-- `JudgeService._getVerdict` (judge.service.js lines 113-128). -/
def getVerdict (result : RunResult) (expectedOutput : Str) : Verdict :=
  if result.verdict ≠ .OK then result.verdict
  else if normalizeOut result.output = normalizeOut expectedOutput then .AC
  else .WA

/-- `JudgeService._truncate` (judge.service.js lines 149-153). -/
def jTruncate (s : Str) (maxLen : Nat) : Str :=
  if s = [] then []
  else if s.length ≤ maxLen then s
  else s.take maxLen ++ ('.' :: '.' :: '.' :: [])

/-- One test case of a judge submission. -/
structure TestCase where
  input : Str
  expectedOutput : Str
deriving DecidableEq, Repr

/-- One per-case entry of the judge result (judge.service.js lines 49-59). -/
structure TestResult where
  testCase : Nat
  verdict : Verdict
  executionTime : Nat
  memoryUsed : Nat
  input : Str
  expectedOutput : Str
  actualOutput : Str
  error : Str
  exitCode : Int
deriving DecidableEq, Repr

instance : Inhabited TestResult :=
  ⟨⟨0, .IE, 0, 0, [], [], [], [], 0⟩⟩

/-- The accumulator variables of the `judge` loop (judge.service.js lines
27-30). -/
structure LoopSt where
  overall : Verdict
  firstFailed : Option Nat
  totalTime : Nat
  maxMemory : Nat
deriving DecidableEq, Repr

/-- Result of running the judge loop. -/
structure LoopOut where
  results : List TestResult
  st : LoopSt
  /-- Instrumentation: the number of `executorService.execute` calls the loop
  performs (one per iteration that reaches line 38 of judge.service.js). -/
  launches : Nat
deriving Repr

/-- The `SKIPPED` entries pushed for the remaining test cases after a
compilation error (judge.service.js lines 73-85); `j` is the 0-based index. -/
def skippedTail : List TestCase → Nat → List TestResult
  | [], _ => []
  | tc :: rest, j =>
    { testCase := j + 1
      verdict := .SKIPPED
      executionTime := 0
      memoryUsed := 0
      input := jTruncate tc.input 1000
      expectedOutput := jTruncate tc.expectedOutput 1000
      actualOutput := []
      error := ("Skipped — compilation error in earlier test case").toList
      exitCode := 0 } :: skippedTail rest (j + 1)

/-- The per-case result record pushed by the `judge` loop (judge.service.js
lines 49-59) for an executed test case. -/
def mkEntry (result : RunResult) (tc : TestCase) (i : Nat) : TestResult :=
  { testCase := i + 1
    verdict := getVerdict result tc.expectedOutput
    executionTime := result.executionTime
    memoryUsed := result.memoryUsed
    input := jTruncate tc.input 1000
    expectedOutput := jTruncate tc.expectedOutput 1000
    actualOutput := jTruncate result.output 1000
    error := result.error
    exitCode := result.exitCode }

/-- One iteration of the accumulator updates of the `judge` loop
(judge.service.js lines 62-69): add the execution time, track the maximum
memory, and on the first non-AC verdict record the overall verdict and the
1-based index of the first failed test case. -/
def stepSt (st : LoopSt) (result : RunResult) (verdict : Verdict) (i : Nat) :
    LoopSt :=
  let st1 : LoopSt :=
    { st with
      totalTime := st.totalTime + result.executionTime
      maxMemory := max st.maxMemory result.memoryUsed }
  if verdict ≠ .AC ∧ st1.overall = .AC then
    { st1 with overall := verdict, firstFailed := some (i + 1) }
  else st1

/-- The main loop of `JudgeService.judge` (judge.service.js lines 32-88).
`exec i` is the `RunResult` that the `await executorService.execute(...)`
call returns for 0-based test case `i`; the loop is sequential so the
executor is modelled as a function of the case index.  On a `CE` verdict the
remaining cases are pushed as `SKIPPED` and the loop breaks. -/
def judgeLoop (exec : Nat → RunResult) : List TestCase → Nat → LoopSt → LoopOut
  | [], _, st => ⟨[], st, 0⟩
  | tc :: rest, i, st =>
    let result := exec i
    let verdict := getVerdict result tc.expectedOutput
    if verdict = .CE then
      ⟨mkEntry result tc i :: skippedTail rest (i + 1),
       stepSt st result verdict i, 1⟩
    else
      let out := judgeLoop exec rest (i + 1) (stepSt st result verdict i)
      ⟨mkEntry result tc i :: out.results, out.st, out.launches + 1⟩

/-- The submission-level judge result (judge.service.js lines 90-102). -/
structure JudgeOutcome where
  overallVerdict : Verdict
  totalTime : Nat
  maxMemory : Nat
  totalTestCases : Nat
  passed : Nat
  failed : Nat
  skipped : Nat
  firstFailedTestCase : Option Nat
  results : List TestResult
  /-- Instrumentation: total number of executor invocations. -/
  launches : Nat
deriving Repr

/-- `JudgeService.judge` (judge.service.js lines 25-103). -/
def judge (exec : Nat → RunResult) (testCases : List TestCase) : JudgeOutcome :=
  let out := judgeLoop exec testCases 0 ⟨.AC, none, 0, 0⟩
  { overallVerdict := out.st.overall
    totalTime := out.st.totalTime
    maxMemory := out.st.maxMemory
    totalTestCases := testCases.length
    passed := out.results.countP (fun r => decide (r.verdict = .AC))
    failed := out.results.countP
      (fun r => decide (r.verdict ≠ .AC ∧ r.verdict ≠ .SKIPPED))
    skipped := out.results.countP (fun r => decide (r.verdict = .SKIPPED))
    firstFailedTestCase := out.st.firstFailed
    results := out.results
    launches := out.launches }

/-! ### Docker batch executor (`ExecutorService`, executor.service.js) -/

/-- The language catalogue keys of `config.LANGUAGES` (config.js lines
27-54). -/
def LANGUAGES : List Str :=
  [("c").toList, ("cpp").toList, ("python").toList]

/-- Raw outcome of the `execFileAsync("docker", args)` call inside
`ExecutorService._runDocker`: either the promise resolved (`threw = false`,
exit 0) or it rejected with `err.killed` / `err.code`. -/
structure DockerRaw where
  threw : Bool
  killed : Bool
  code : Int
  stdout : Str
  stderr : Str
deriving DecidableEq, Repr

/-- Return value of `ExecutorService._runDocker` (executor.service.js lines
151-225). -/
structure DockerResult where
  exitCode : Int
  stdout : Str
  stderr : Str
  oomKilled : Bool
deriving DecidableEq, Repr

/-- `ExecutorService._runDocker`, outcome classification (executor.service.js
lines 193-224).  On success exit 0; on a Node-timeout kill exit 124 with a
fixed message; otherwise `exitCode = err.code || 1` and
`oomKilled = exitCode === 137`. -/
def runDocker (raw : DockerRaw) : DockerResult :=
  if raw.threw = false then ⟨0, raw.stdout, raw.stderr, false⟩
  else if raw.killed then
    ⟨124, [], ("Execution timed out (Docker overhead)").toList, false⟩
  else
    let exitCode : Int := if raw.code = 0 then 1 else raw.code
    ⟨exitCode, raw.stdout, raw.stderr, exitCode = 137⟩

/-- The argument vector `ExecutorService._runDocker` passes to `docker`
(executor.service.js lines 152-189).  Note it carries the language and the
time limit but no test-case count. -/
def dockerArgs (memoryLimit timeLimit : Nat) (workDir language sandboxImage : Str) :
    List Str :=
  [("run").toList, ("--rm").toList,
   ("--network=none").toList,
   ("--memory=").toList ++ (toString memoryLimit).toList ++ [Char.ofNat 109],
   ("--memory-swap=").toList ++ (toString memoryLimit).toList ++ [Char.ofNat 109],
   ("--cpus=1").toList,
   ("--pids-limit=64").toList,
   ("--cap-drop=ALL").toList,
   ("--security-opt=no-new-privileges").toList,
   ("--ulimit").toList, ("fsize=10485760:10485760").toList,
   ("--ulimit").toList, ("nofile=64:64").toList,
   ("-v").toList, workDir ++ (":/sandbox").toList,
   sandboxImage, language, (toString timeLimit).toList]

/-- `ExecutorService._truncate` (executor.service.js lines 265-271); the
truncation marker in the source interpolates the original length. -/
def eTruncate (s : Str) (maxLen : Nat) : Str :=
  if s = [] then []
  else if s.length ≤ maxLen then s
  else s.take maxLen ++ ('\n' :: ("... (truncated, ").toList
    ++ (toString s.length).toList ++ (" total chars)").toList)

/-- `cleanup` (file.util.js lines 56-62): `fs.rm(dirPath, recursive, force)`
wrapped in try/catch — a removal failure is swallowed (the source comments
that temp dirs will be cleaned eventually) and `cleanup` itself never
throws.  Given whether the directory exists before the call and whether the
underlying `fs.rm` succeeds (`rmOk`), it returns whether the directory still
exists afterwards: removed exactly when `fs.rm` succeeds. -/
def cleanup (dirExists : Bool) (rmOk : Bool) : Bool :=
  if rmOk then false else dirExists

/-- The effect outcomes of one `ExecutorService.execute` call.  `Except.error`
models a thrown JavaScript exception carrying the message.  `createWorkDir`
is modelled as atomic: either it throws having created nothing, or the work
directory exists afterwards.  `writeFiles` covers the `Promise.all` of the
five `writeFile` calls, `chmod` the `chmod -R 777` subprocess.  The reads of
`output.txt` / `stderr.txt` / `meta.txt` never throw (`readFile` swallows
errors returning `""`); their contents and the parsed meta fields
(`ExecutorService._parseMeta`) are given directly.  `rmOk` is the outcome of
the `fs.rm` performed by the `cleanup` in the `finally` block. -/
structure ExecEnv where
  createWorkDir : Except Str Unit
  writeFiles : Except Str Unit
  chmod : Except Str Unit
  docker : DockerRaw
  outputFile : Str
  stderrFile : Str
  metaVerdict : Option Verdict
  metaTime : Nat
  metaMemory : Nat
  metaExitCode : Option Int
  wallTimeMs : Nat
  rmOk : Bool
deriving Repr

/-- What one `ExecutorService.execute` call leaves behind: its return value
(or propagated exception), whether the work directory still exists, and how
many Docker sandboxes were launched. -/
structure ExecOutcome where
  ret : Except Str RunResult
  workDirExists : Bool
  dockerLaunches : Nat
deriving Repr

/-- The `IE` result built in the `catch` block of `ExecutorService.execute`
(executor.service.js lines 128-141). -/
def ieResult (msg : Str) : RunResult :=
  { verdict := .IE
    output := []
    error := ("Internal Error: ").toList ++ msg
    executionTime := 0
    memoryUsed := 0
    exitCode := -1
    wallTime := 0 }

/-- `ExecutorService.execute` (executor.service.js lines 38-146): language
validation throws before any directory exists; `createWorkDir` runs before
the `try`, so its exception propagates (and, having thrown before the `try`,
no `finally` runs — but nothing was created); every failure inside the `try`
is caught and converted to an `IE` result; the `finally` always runs
`cleanup` on the created directory, whose `fs.rm` outcome is `env.rmOk` —
a swallowed removal failure leaves the directory behind. -/
def execute (language : Str) (env : ExecEnv) : ExecOutcome :=
  if language ∉ LANGUAGES then
    ⟨.error (("Unsupported language: ").toList ++ language), false, 0⟩
  else
    match env.createWorkDir with
    | .error e => ⟨.error e, false, 0⟩
    | .ok _ =>
      match env.writeFiles with
      | .error e => ⟨.ok (ieResult e), cleanup true env.rmOk, 0⟩
      | .ok _ =>
        match env.chmod with
        | .error e => ⟨.ok (ieResult e), cleanup true env.rmOk, 0⟩
        | .ok _ =>
          let d := runDocker env.docker
          let verdict :=
            match env.metaVerdict with
            | some v => v
            | none =>
              if d.oomKilled then .MLE
              else if d.exitCode = 137 then .MLE
              else if d.exitCode ≠ 0 then .RE
              else .IE
          ⟨.ok
            { verdict := verdict
              output := eTruncate env.outputFile 10000
              error := eTruncate env.stderrFile 5000
              executionTime :=
                if env.metaTime = 0 then env.wallTimeMs else env.metaTime
              memoryUsed := env.metaMemory
              exitCode := env.metaExitCode.getD d.exitCode
              wallTime := env.wallTimeMs },
           cleanup true env.rmOk, 1⟩

/-! ### Subprocess batch executor (`ProcessExecutor`, second half of
src/src/config.js) -/

/-- Raw outcome of one `ProcessExecutor._runProcess` call (config.js lines
349-422).  `_runProcess` never rejects: spawn errors resolve with exit -1 and
the error message on stderr. -/
structure ProcRunRaw where
  timedOut : Bool
  exitCode : Int
  signal : Option Str
  stdout : Str
  stderr : Str
  memoryUsed : Nat
deriving DecidableEq, Repr

/-- `ProcessExecutor._truncate` (config.js lines 424-428). -/
def pTruncate (s : Str) (maxLen : Nat) : Str :=
  if s = [] then []
  else if s.length ≤ maxLen then s
  else s.take maxLen ++ ('\n' :: ("... (truncated)").toList)

/-- Verdict classification of `ProcessExecutor._runTestCase` (config.js lines
316-333): timeout flag first, then exit 137, then exits 139/136/134 or the
corresponding signal names (appending a message to stderr), then any other
non-zero exit, else `OK`. -/
def processClassify (r : ProcRunRaw) : Verdict × Str :=
  if r.timedOut then (.TLE, r.stderr)
  else if r.exitCode = 137 then (.MLE, r.stderr)
  else if r.exitCode = 139 ∨ r.signal = some (("SIGSEGV").toList) then
    (.RE, r.stderr ++ '\n' :: ("Segmentation fault (SIGSEGV)").toList)
  else if r.exitCode = 136 ∨ r.signal = some (("SIGFPE").toList) then
    (.RE, r.stderr ++ '\n' :: ("Floating point exception (SIGFPE)").toList)
  else if r.exitCode = 134 ∨ r.signal = some (("SIGABRT").toList) then
    (.RE, r.stderr ++ '\n' :: ("Aborted (SIGABRT)").toList)
  else if r.exitCode ≠ 0 then (.RE, r.stderr)
  else (.OK, r.stderr)

/-- `ProcessExecutor._runTestCase` (config.js lines 295-344), given the raw
process outcome and the measured execution time. -/
def runTestCase (r : ProcRunRaw) (executionTime : Nat) : RunResult :=
  let c := processClassify r
  { verdict := c.1
    output := pTruncate r.stdout 10000
    error := pTruncate c.2 5000
    executionTime := executionTime
    memoryUsed := r.memoryUsed
    exitCode := r.exitCode
    wallTime := executionTime }

/-- Effect outcomes of one `ProcessExecutor.batchExecute` call (config.js
lines 140-233).  `compile` is the outcome of `_compile`: `some msg` is a
compilation failure with the compiler output (returned, not thrown), `none`
success.  `runs i` and `runTimes i` are the raw outcome and measured time of
the i-th `_runTestCase`.  `rmOk` is the outcome of the `fs.rm` performed by
the `cleanup` in the `finally` block. -/
structure ProcEnv where
  createWorkDir : Except Str Unit
  writeCode : Except Str Unit
  compile : Option Str
  compileTimeMs : Nat
  runs : Nat → ProcRunRaw
  runTimes : Nat → Nat
  rmOk : Bool

/-- What one `batchExecute` call leaves behind. -/
structure BatchOutcome where
  ret : Except Str (List RunResult)
  workDirExists : Bool
deriving Repr

/-- The per-case `CE` result returned when compilation fails (config.js lines
172-184). -/
def ceResult (stderr : Str) (compileTimeMs : Nat) : RunResult :=
  { verdict := .CE
    output := []
    error := pTruncate stderr 5000
    executionTime := 0
    memoryUsed := 0
    exitCode := 1
    wallTime := compileTimeMs }

/-- The per-case `IE` result built in the `catch` block of `batchExecute`
(config.js lines 218-229). -/
def pIeResult (msg : Str) : RunResult :=
  { verdict := .IE
    output := []
    error := ("Internal Error: ").toList ++ msg
    executionTime := 0
    memoryUsed := 0
    exitCode := -1
    wallTime := 0 }

/-- `ProcessExecutor.batchExecute` (config.js lines 140-233): language
validation throws; `createWorkDir` runs before the `try` so its exception
propagates; failures inside the `try` are caught and mapped to one `IE`
entry per input; compilation failure returns one `CE` entry per input; the
`finally` always runs `cleanup` on the created directory, whose `fs.rm`
outcome is `env.rmOk` — a swallowed removal failure leaves the directory
behind. -/
def batchExecute (language : Str) (inputs : List Str) (env : ProcEnv) :
    BatchOutcome :=
  if language ∉ LANGUAGES then
    ⟨.error (("Unsupported language: ").toList ++ language), false⟩
  else
    match env.createWorkDir with
    | .error e => ⟨.error e, false⟩
    | .ok _ =>
      match env.writeCode with
      | .error e => ⟨.ok (inputs.map fun _ => pIeResult e), cleanup true env.rmOk⟩
      | .ok _ =>
        match env.compile with
        | some msg =>
          ⟨.ok (inputs.map fun _ => ceResult msg env.compileTimeMs),
           cleanup true env.rmOk⟩
        | none =>
          ⟨.ok ((List.range inputs.length).map fun i =>
            runTestCase (env.runs i) (env.runTimes i)), cleanup true env.rmOk⟩

/-! ### Sandbox runner verdict classification (src/sandbox/run.sh) -/

/-- PHASE 4 of `run.sh` (lines 118-135): classify the exit status of
`timeout TIME_LIMIT sh -c "EXEC_CMD ..."` and append the signal message to
the stderr file for exits 139/136/134 (`echo "..." >>` adds a trailing
newline). -/
def runShClassify (exit : Int) (stderrFile : Str) : Verdict × Str :=
  if exit = 124 then (.TLE, stderrFile)
  else if exit = 137 then (.MLE, stderrFile)
  else if exit = 139 then
    (.RE, stderrFile ++ ("Segmentation fault (SIGSEGV)").toList ++ ['\n'])
  else if exit = 136 then
    (.RE, stderrFile ++ ("Floating point exception (SIGFPE)").toList ++ ['\n'])
  else if exit = 134 then
    (.RE, stderrFile ++ ("Aborted (SIGABRT)").toList ++ ['\n'])
  else if exit ≠ 0 then (.RE, stderrFile)
  else (.OK, stderrFile)

/-- The exit-status → verdict decision table as the specification presents it
(spec §4.1), encoded as data with the two default rows. -/
def verdictTable : List (Int × Verdict) :=
  [(124, .TLE), (137, .MLE), (139, .RE), (136, .RE), (134, .RE)]

/-- Verdict given by the specification decision table. -/
def tableVerdict (exit : Int) : Verdict :=
  match verdictTable.lookup exit with
  | some v => v
  | none => if exit ≠ 0 then .RE else .OK

/-- The stderr message the specification table appends for a given exit. -/
def tableAppend (exit : Int) : Str :=
  if exit = 139 then ("Segmentation fault (SIGSEGV)").toList ++ ['\n']
  else if exit = 136 then ("Floating point exception (SIGFPE)").toList ++ ['\n']
  else if exit = 134 then ("Aborted (SIGABRT)").toList ++ ['\n']
  else []

/-! ### Admission queue (`QueueService`, queue.service.js) -/

/-- State of `QueueService`: the concurrency cap, the `running` counter, the
`waiting` list, plus ghost fields recording, in order, every task enqueued
(as consecutive sequence numbers) and every task started. -/
structure QState where
  maxConcurrent : Nat
  running : Nat
  waiting : List Nat
  started : List Nat
  enqueuedCount : Nat
deriving DecidableEq, Repr

/-- One invocation of `QueueService._process` (queue.service.js lines 35-60):
if capacity remains and a task is waiting, shift the head of the waiting
list and start it. -/
def tryProcess (s : QState) : QState :=
  match s.waiting with
  | [] => s
  | t :: rest =>
    if s.running ≥ s.maxConcurrent then s
    else
      { s with
        waiting := rest
        running := s.running + 1
        started := s.started ++ [t] }

/-- The two event-loop-atomic transitions of `QueueService`:
`enqueue` (lines 22-30) appends the task and runs `_process` once; a task
completion (the `finally` of `_process`, lines 55-59) decrements `running`
and runs `_process` once. -/
inductive QStep : QState → QState → Prop
  | enqueue (s : QState) :
      QStep s (tryProcess
        { s with
          waiting := s.waiting ++ [s.enqueuedCount]
          enqueuedCount := s.enqueuedCount + 1 })
  | complete (s : QState) (h : 0 < s.running) :
      QStep s (tryProcess { s with running := s.running - 1 })

/-- The initial queue state (queue.service.js constructor, lines 9-15). -/
def initQ (maxConcurrent : Nat) : QState :=
  ⟨maxConcurrent, 0, [], [], 0⟩

/-- States reachable by any sequence of enqueue / completion events. -/
inductive QReachable (maxConcurrent : Nat) : QState → Prop
  | init : QReachable maxConcurrent (initQ maxConcurrent)
  | step {s t : QState} :
      QReachable maxConcurrent s → QStep s t → QReachable maxConcurrent t

/-! ### Auxiliary definitions used by the proofs -/

/-- Drop trailing empty lines from a list of lines. -/
def truncTrailing (ls : List Str) : List Str :=
  (ls.reverse.dropWhile (fun t => t.isEmpty)).reverse

/-- A run result with verdict `OK` and the given output, as the Docker
executor returns for a successful run. -/
def okRun (output : Str) : RunResult :=
  { verdict := .OK, output := output, error := [], executionTime := 1,
    memoryUsed := 0, exitCode := 0, wallTime := 1 }

/-- A run result with verdict `CE`, as the executor returns when compilation
fails. -/
def ceRun : RunResult :=
  { verdict := .CE, output := [], error := ("error: expected ;").toList,
    executionTime := 0, memoryUsed := 0, exitCode := 1, wallTime := 0 }

/-! ### Theorems -/

theorem jsTrimEnd_idem (l : Str) : jsTrimEnd (jsTrimEnd l) = jsTrimEnd l := by
  have h : ∀ (p : Char → Bool) (x : Str),
      (x.dropWhile p).dropWhile p = x.dropWhile p := by
    intro p x
    induction x with
    | nil => rfl
    | cons a t ih =>
      by_cases hpa : p a
      · simp [List.dropWhile_cons_of_pos hpa, ih]
      · simp [List.dropWhile_cons_of_neg hpa, hpa]
  simp [jsTrimEnd, h]

theorem tableVerdict_unfold (e : Int) :
    tableVerdict e =
      if e = 124 then .TLE else if e = 137 then .MLE
      else if e = 139 then .RE else if e = 136 then .RE
      else if e = 134 then .RE else if e ≠ 0 then .RE else .OK := by
  by_cases h1 : e = 124 <;> by_cases h2 : e = 137 <;> by_cases h3 : e = 139 <;>
    by_cases h4 : e = 136 <;> by_cases h5 : e = 134 <;>
    simp_all [tableVerdict, verdictTable, List.lookup, Bool.beq_eq_decide_eq]

/-- C5 counterexample: the direct-subprocess backend decides `TLE` from the
timeout flag, not from exit status 124.  A child that itself exits with
status 124 (without timing out) is classified `RE`, while the claimed
decision table maps exit 124 to `TLE`. -/
theorem C5_counterexample :
    (processClassify ⟨false, 124, none, [], [], 0⟩).1 = Verdict.RE ∧
    tableVerdict 124 = Verdict.TLE ∧ Verdict.RE ≠ Verdict.TLE := by
  refine ⟨?_, ?_, by decide⟩
  · simp [processClassify]
  · simp [tableVerdict, verdictTable, List.lookup]

/-- C5 (amended): the sandbox runner (`run.sh` PHASE 4) classifies exactly by
the decision table, appending the message of the table to stderr; the
direct-subprocess backend follows the table only on the non-timeout,
non-signal rows other than exit 124, and decides `TLE` from its timeout flag
instead. -/
theorem C5_verdict_table :
    (∀ (e : Int) (s : Str),
      runShClassify e s = (tableVerdict e, s ++ tableAppend e)) ∧
    (∀ r : ProcRunRaw, r.timedOut = true → (processClassify r).1 = .TLE) ∧
    (∀ r : ProcRunRaw, r.timedOut = false → r.signal = none →
      r.exitCode ≠ 124 → (processClassify r).1 = tableVerdict r.exitCode) := by
  refine ⟨?_, ?_, ?_⟩
  · intro e s
    rw [tableVerdict_unfold]
    simp only [runShClassify, tableAppend]
    split_ifs <;> simp_all
  · intro r h
    simp [processClassify, h]
  · intro r h1 h2 h3
    rw [tableVerdict_unfold]
    simp only [processClassify, h1, h2, h3]
    split_ifs <;> simp_all

/-- C5 witness: the amended theorem evaluated at exit status 139 in the
sandbox runner and at a timed-out subprocess run. -/
theorem C5_verdict_table_witness :
    runShClassify 139 [] =
      (Verdict.RE, ("Segmentation fault (SIGSEGV)").toList ++ ['\n']) ∧
    (processClassify ⟨true, 124, none, [], [], 0⟩).1 = Verdict.TLE ∧
    (processClassify ⟨false, 1, none, [], [], 0⟩).1 = tableVerdict 1 := by
  refine ⟨?_, C5_verdict_table.2.1 ⟨true, 124, none, [], [], 0⟩ rfl,
    C5_verdict_table.2.2 ⟨false, 1, none, [], [], 0⟩ rfl rfl (by decide)⟩
  have h := C5_verdict_table.1 139 []
  simpa [tableVerdict, verdictTable, List.lookup, tableAppend] using h

theorem tryProcess_nil (m r : Nat) (st : List Nat) (c : Nat) :
    tryProcess ⟨m, r, [], st, c⟩ = ⟨m, r, [], st, c⟩ := rfl

theorem tryProcess_cons_ge (m r t : Nat) (rest st : List Nat) (c : Nat)
    (h : r ≥ m) :
    tryProcess ⟨m, r, t :: rest, st, c⟩ = ⟨m, r, t :: rest, st, c⟩ := by
  unfold tryProcess
  exact if_pos h

theorem tryProcess_cons_lt (m r t : Nat) (rest st : List Nat) (c : Nat)
    (h : ¬ r ≥ m) :
    tryProcess ⟨m, r, t :: rest, st, c⟩ = ⟨m, r + 1, rest, st ++ [t], c⟩ := by
  unfold tryProcess
  exact if_neg h

theorem tryProcess_inv (m r : Nat) (w st : List Nat) (c : Nat)
    (h1 : r ≤ m) (h2 : st ++ w = List.range c) :
    (tryProcess ⟨m, r, w, st, c⟩).maxConcurrent = m ∧
    (tryProcess ⟨m, r, w, st, c⟩).enqueuedCount = c ∧
    (tryProcess ⟨m, r, w, st, c⟩).running ≤ m ∧
    (tryProcess ⟨m, r, w, st, c⟩).started ++ (tryProcess ⟨m, r, w, st, c⟩).waiting =
      List.range c := by
  cases w with
  | nil => rw [tryProcess_nil]; exact ⟨rfl, rfl, h1, h2⟩
  | cons t rest =>
    by_cases hcap : r ≥ m
    · rw [tryProcess_cons_ge m r t rest st c hcap]
      exact ⟨rfl, rfl, h1, h2⟩
    · rw [tryProcess_cons_lt m r t rest st c hcap]
      refine ⟨rfl, rfl, ?_, ?_⟩
      · show r + 1 ≤ m
        omega
      · show (st ++ [t]) ++ rest = List.range c
        simpa [List.append_assoc] using h2

theorem QStep_inv {M : Nat} {s t : QState} (hstep : QStep s t)
    (ih1 : s.maxConcurrent = M) (ih2 : s.running ≤ M)
    (ih3 : s.started ++ s.waiting = List.range s.enqueuedCount) :
    t.maxConcurrent = M ∧ t.running ≤ M ∧
    t.started ++ t.waiting = List.range t.enqueuedCount := by
  cases hstep with
  | enqueue =>
    rcases s with ⟨m, r, w, st, c⟩
    simp only at ih1 ih2 ih3
    subst ih1
    show (tryProcess ⟨m, r, w ++ [c], st, c + 1⟩).maxConcurrent = m ∧
      (tryProcess ⟨m, r, w ++ [c], st, c + 1⟩).running ≤ m ∧
      (tryProcess ⟨m, r, w ++ [c], st, c + 1⟩).started ++
        (tryProcess ⟨m, r, w ++ [c], st, c + 1⟩).waiting =
        List.range (tryProcess ⟨m, r, w ++ [c], st, c + 1⟩).enqueuedCount
    have h2 : st ++ (w ++ [c]) = List.range (c + 1) := by
      rw [List.range_succ, ← List.append_assoc, ih3]
    have h := tryProcess_inv m r (w ++ [c]) st (c + 1) ih2 h2
    refine ⟨h.1, h.2.2.1, ?_⟩
    rw [h.2.1]
    exact h.2.2.2
  | complete hrun =>
    rcases s with ⟨m, r, w, st, c⟩
    simp only at ih1 ih2 ih3
    subst ih1
    show (tryProcess ⟨m, r - 1, w, st, c⟩).maxConcurrent = m ∧
      (tryProcess ⟨m, r - 1, w, st, c⟩).running ≤ m ∧
      (tryProcess ⟨m, r - 1, w, st, c⟩).started ++
        (tryProcess ⟨m, r - 1, w, st, c⟩).waiting =
        List.range (tryProcess ⟨m, r - 1, w, st, c⟩).enqueuedCount
    have h := tryProcess_inv m (r - 1) w st c (by omega) ih3
    refine ⟨h.1, h.2.2.1, ?_⟩
    rw [h.2.1]
    exact h.2.2.2

/-- C8: in every state reachable by any sequence of enqueue and
task-completion steps, the number of running tasks never exceeds
`max_concurrent`, and tasks start in FIFO enqueue order: the sequence of
started tasks followed by the waiting list is exactly the enqueue sequence,
so a task starts only after every earlier-enqueued task has started. -/
theorem C8_queue_fifo_bounded (maxConcurrent : Nat) (s : QState)
    (h : QReachable maxConcurrent s) :
    s.running ≤ maxConcurrent ∧
    s.started ++ s.waiting = List.range s.enqueuedCount := by
  have main : s.maxConcurrent = maxConcurrent ∧ s.running ≤ maxConcurrent ∧
      s.started ++ s.waiting = List.range s.enqueuedCount := by
    induction h with
    | init => simp [initQ]
    | step hr hstep ih => exact QStep_inv hstep ih.1 ih.2.1 ih.2.2
  exact ⟨main.2.1, main.2.2⟩

/-- C8 witness: the invariant evaluated in the state reached from the empty
queue (cap 2) by a single enqueue, where the task was started at once. -/
theorem C8_queue_fifo_bounded_witness :
    (1 : Nat) ≤ 2 ∧ ([0] : List Nat) ++ ([] : List Nat) = List.range 1 := by
  have h := C8_queue_fifo_bounded 2 _
    (QReachable.step QReachable.init (QStep.enqueue (initQ 2)))
  simpa [initQ, tryProcess] using h

theorem mkEntry_verdict (r : RunResult) (tc : TestCase) (i : Nat) :
    (mkEntry r tc i).verdict = getVerdict r tc.expectedOutput := rfl

theorem judgeLoop_nil (exec : Nat → RunResult) (i : Nat) (st : LoopSt) :
    judgeLoop exec [] i st = ⟨[], st, 0⟩ := rfl

theorem judgeLoop_cons_ce {exec : Nat → RunResult} {tc : TestCase} {i : Nat}
    (rest : List TestCase) (st : LoopSt)
    (h : getVerdict (exec i) tc.expectedOutput = .CE) :
    judgeLoop exec (tc :: rest) i st =
      ⟨mkEntry (exec i) tc i :: skippedTail rest (i + 1),
       stepSt st (exec i) (getVerdict (exec i) tc.expectedOutput) i, 1⟩ := by
  simp [judgeLoop, h]

theorem judgeLoop_cons_ne {exec : Nat → RunResult} {tc : TestCase} {i : Nat}
    (rest : List TestCase) (st : LoopSt)
    (h : getVerdict (exec i) tc.expectedOutput ≠ .CE) :
    judgeLoop exec (tc :: rest) i st =
      ⟨mkEntry (exec i) tc i ::
        (judgeLoop exec rest (i + 1)
          (stepSt st (exec i) (getVerdict (exec i) tc.expectedOutput) i)).results,
       (judgeLoop exec rest (i + 1)
          (stepSt st (exec i) (getVerdict (exec i) tc.expectedOutput) i)).st,
       (judgeLoop exec rest (i + 1)
          (stepSt st (exec i) (getVerdict (exec i) tc.expectedOutput) i)).launches
         + 1⟩ := by
  simp [judgeLoop, h]

theorem stepSt_overall (st : LoopSt) (r : RunResult) (v : Verdict) (i : Nat) :
    (stepSt st r v i).overall =
      if v ≠ .AC ∧ st.overall = .AC then v else st.overall := by
  unfold stepSt
  dsimp only
  by_cases h : v ≠ Verdict.AC ∧ st.overall = Verdict.AC <;> simp [h]

theorem stepSt_firstFailed (st : LoopSt) (r : RunResult) (v : Verdict) (i : Nat) :
    (stepSt st r v i).firstFailed =
      if v ≠ .AC ∧ st.overall = .AC then some (i + 1) else st.firstFailed := by
  unfold stepSt
  dsimp only
  by_cases h : v ≠ Verdict.AC ∧ st.overall = Verdict.AC <;> simp [h]

theorem skippedTail_verdict {r : TestResult} :
    ∀ (tcs : List TestCase) (j : Nat), r ∈ skippedTail tcs j →
    r.verdict = .SKIPPED := by
  intro tcs
  induction tcs with
  | nil => intro j h; simp [skippedTail] at h
  | cons tc rest ih =>
    intro j h
    simp only [skippedTail, List.mem_cons] at h
    rcases h with h | h
    · subst h; rfl
    · exact ih (j + 1) h

theorem judgeLoop_stuck (exec : Nat → RunResult) (tcs : List TestCase) :
    ∀ (i : Nat) (st : LoopSt), st.overall ≠ .AC →
    (judgeLoop exec tcs i st).st.overall = st.overall ∧
    (judgeLoop exec tcs i st).st.firstFailed = st.firstFailed := by
  induction tcs with
  | nil => intro i st _; exact ⟨rfl, rfl⟩
  | cons tc rest ih =>
    intro i st h
    have hov : ∀ v, (stepSt st (exec i) v i).overall = st.overall := by
      intro v; rw [stepSt_overall]; simp [h]
    have hff : ∀ v, (stepSt st (exec i) v i).firstFailed = st.firstFailed := by
      intro v; rw [stepSt_firstFailed]; simp [h]
    by_cases hce : getVerdict (exec i) tc.expectedOutput = .CE
    · rw [judgeLoop_cons_ce rest st hce]
      exact ⟨hov _, hff _⟩
    · rw [judgeLoop_cons_ne rest st hce]
      have hrec := ih (i + 1)
        (stepSt st (exec i) (getVerdict (exec i) tc.expectedOutput) i)
        (by rw [hov _]; exact h)
      dsimp only
      exact ⟨by rw [hrec.1, hov _], by rw [hrec.2, hff _]⟩

theorem judgeLoop_overall_AC (exec : Nat → RunResult) (tcs : List TestCase) :
    ∀ (i : Nat) (st : LoopSt),
    ((judgeLoop exec tcs i st).st.overall = .AC ↔
      (st.overall = .AC ∧
        ∀ r ∈ (judgeLoop exec tcs i st).results, r.verdict = .AC)) := by
  induction tcs with
  | nil => intro i st; simp [judgeLoop_nil]
  | cons tc rest ih =>
    intro i st
    by_cases hce : getVerdict (exec i) tc.expectedOutput = .CE
    · rw [judgeLoop_cons_ce rest st hce]
      dsimp only
      constructor
      · intro hl
        rw [stepSt_overall] at hl
        exfalso
        by_cases hov : st.overall = .AC
        · rw [if_pos ⟨by rw [hce]; decide, hov⟩] at hl
          rw [hce] at hl
          exact absurd hl (by decide)
        · rw [if_neg (by intro hc; exact hov hc.2)] at hl
          exact hov hl
      · rintro ⟨h1, h2⟩
        exfalso
        have hent := h2 (mkEntry (exec i) tc i) (List.mem_cons_self _ _)
        rw [mkEntry_verdict, hce] at hent
        exact absurd hent (by decide)
    · rw [judgeLoop_cons_ne rest st hce]
      dsimp only
      by_cases hac : getVerdict (exec i) tc.expectedOutput = .AC
      · rw [ih (i + 1) (stepSt st (exec i) (getVerdict (exec i) tc.expectedOutput) i)]
        have hov : (stepSt st (exec i)
            (getVerdict (exec i) tc.expectedOutput) i).overall = st.overall := by
          rw [stepSt_overall, if_neg]
          intro hc
          exact hc.1 hac
        rw [hov]
        simp only [List.mem_cons]
        constructor
        · rintro ⟨h1, h2⟩
          refine ⟨h1, ?_⟩
          intro r hr
          rcases hr with hr | hr
          · rw [hr, mkEntry_verdict, hac]
          · exact h2 r hr
        · rintro ⟨h1, h2⟩
          exact ⟨h1, fun r hr => h2 r (Or.inr hr)⟩
      · by_cases hov : st.overall = .AC
        · have hstep : (stepSt st (exec i)
              (getVerdict (exec i) tc.expectedOutput) i).overall =
              getVerdict (exec i) tc.expectedOutput := by
            rw [stepSt_overall, if_pos ⟨hac, hov⟩]
          have hstuck := judgeLoop_stuck exec rest (i + 1)
            (stepSt st (exec i) (getVerdict (exec i) tc.expectedOutput) i)
            (by rw [hstep]; exact hac)
          constructor
          · intro hl
            rw [hstuck.1, hstep] at hl
            exact absurd hl hac
          · rintro ⟨h1, h2⟩
            have hent := h2 (mkEntry (exec i) tc i) (List.mem_cons_self _ _)
            rw [mkEntry_verdict] at hent
            exact absurd hent hac
        · have hov2 : (stepSt st (exec i)
              (getVerdict (exec i) tc.expectedOutput) i).overall = st.overall := by
            rw [stepSt_overall, if_neg]
            intro hc
            exact hov hc.2
          have hstuck := judgeLoop_stuck exec rest (i + 1)
            (stepSt st (exec i) (getVerdict (exec i) tc.expectedOutput) i)
            (by rw [hov2]; exact hov)
          constructor
          · intro hl
            rw [hstuck.1, hov2] at hl
            exact absurd hl hov
          · rintro ⟨h1, h2⟩
            exact absurd h1 hov

/-- C2: the submission-level overall verdict is `AC` exactly when every
per-case entry of the judge result has verdict `AC`. -/
theorem C2_overall_AC_iff (exec : Nat → RunResult) (testCases : List TestCase) :
    (judge exec testCases).overallVerdict = .AC ↔
    ∀ r ∈ (judge exec testCases).results, r.verdict = .AC := by
  unfold judge
  dsimp only
  rw [judgeLoop_overall_AC]
  simp

theorem judgeLoop_firstFail (exec : Nat → RunResult) (tcs : List TestCase) :
    ∀ (i : Nat) (st : LoopSt), st.overall = .AC → st.firstFailed = none →
    ∀ k, k < (judgeLoop exec tcs i st).results.length →
    (∀ j, j < k →
      ((judgeLoop exec tcs i st).results.getD j default).verdict = .AC) →
    ((judgeLoop exec tcs i st).results.getD k default).verdict ≠ .AC →
    (judgeLoop exec tcs i st).st.overall =
      ((judgeLoop exec tcs i st).results.getD k default).verdict ∧
    (judgeLoop exec tcs i st).st.firstFailed = some (i + k + 1) := by
  induction tcs with
  | nil =>
    intro i st _ _ k hk _ _
    simp [judgeLoop_nil] at hk
  | cons tc rest ih =>
    intro i st hov hff k hk hprior hfail
    by_cases hce : getVerdict (exec i) tc.expectedOutput = .CE
    · rw [judgeLoop_cons_ce rest st hce] at hk hprior hfail ⊢
      dsimp only at hk hprior hfail ⊢
      cases k with
      | zero =>
        rw [List.getD_cons_zero] at hfail ⊢
        have hne : getVerdict (exec i) tc.expectedOutput ≠ .AC := by
          rw [hce]; decide
        refine ⟨?_, ?_⟩
        · rw [stepSt_overall, if_pos ⟨hne, hov⟩, mkEntry_verdict]
        · rw [stepSt_firstFailed, if_pos ⟨hne, hov⟩]
      | succ k1 =>
        exfalso
        have h0 := hprior 0 (Nat.succ_pos k1)
        rw [List.getD_cons_zero, mkEntry_verdict, hce] at h0
        exact absurd h0 (by decide)
    · rw [judgeLoop_cons_ne rest st hce] at hk hprior hfail ⊢
      dsimp only at hk hprior hfail ⊢
      by_cases hac : getVerdict (exec i) tc.expectedOutput = .AC
      · have hov2 : (stepSt st (exec i)
            (getVerdict (exec i) tc.expectedOutput) i).overall = .AC := by
          rw [stepSt_overall, if_neg (fun hc => hc.1 hac)]
          exact hov
        have hff2 : (stepSt st (exec i)
            (getVerdict (exec i) tc.expectedOutput) i).firstFailed = none := by
          rw [stepSt_firstFailed, if_neg (fun hc => hc.1 hac)]
          exact hff
        cases k with
        | zero =>
          exfalso
          rw [List.getD_cons_zero, mkEntry_verdict] at hfail
          exact hfail hac
        | succ k1 =>
          rw [List.getD_cons_succ] at hfail ⊢
          have hrec := ih (i + 1)
            (stepSt st (exec i) (getVerdict (exec i) tc.expectedOutput) i)
            hov2 hff2 k1
            (by
              rw [List.length_cons] at hk
              omega)
            (by
              intro j hj
              have := hprior (j + 1) (by omega)
              rwa [List.getD_cons_succ] at this)
            hfail
          refine ⟨hrec.1, ?_⟩
          rw [hrec.2]
          congr 1
          omega
      · have hstep : (stepSt st (exec i)
            (getVerdict (exec i) tc.expectedOutput) i).overall =
            getVerdict (exec i) tc.expectedOutput := by
          rw [stepSt_overall, if_pos ⟨hac, hov⟩]
        have hstepf : (stepSt st (exec i)
            (getVerdict (exec i) tc.expectedOutput) i).firstFailed =
            some (i + 1) := by
          rw [stepSt_firstFailed, if_pos ⟨hac, hov⟩]
        have hstuck := judgeLoop_stuck exec rest (i + 1)
          (stepSt st (exec i) (getVerdict (exec i) tc.expectedOutput) i)
          (by rw [hstep]; exact hac)
        cases k with
        | zero =>
          rw [List.getD_cons_zero, mkEntry_verdict]
          exact ⟨by rw [hstuck.1, hstep], by rw [hstuck.2, hstepf]⟩
        | succ k1 =>
          exfalso
          have h0 := hprior 0 (Nat.succ_pos k1)
          rw [List.getD_cons_zero, mkEntry_verdict] at h0
          exact hac h0

/-- C10: when some per-case entry is non-AC, the overall verdict equals the
verdict of the lowest-index non-AC entry (later, possibly more severe,
failures do not affect it), and `firstFailedTestCase` is the
1-based index of that entry. -/
theorem C10_first_failure (exec : Nat → RunResult) (testCases : List TestCase)
    (k : Nat) (hk : k < (judge exec testCases).results.length)
    (hprior : ∀ j, j < k →
      ((judge exec testCases).results.getD j default).verdict = .AC)
    (hfail : ((judge exec testCases).results.getD k default).verdict ≠ .AC) :
    (judge exec testCases).overallVerdict =
      ((judge exec testCases).results.getD k default).verdict ∧
    (judge exec testCases).firstFailedTestCase = some (k + 1) := by
  unfold judge at hk hprior hfail ⊢
  dsimp only at hk hprior hfail ⊢
  have h := judgeLoop_firstFail exec testCases 0 ⟨.AC, none, 0, 0⟩ rfl rfl
    k hk hprior hfail
  simpa using h

/-- C10 witness: a single test case judged Wrong Answer: the overall verdict
is the first failing verdict and the first failed index is 1. -/
theorem C10_first_failure_witness :
    ((judge (fun _ => okRun ['x']) [⟨[], ['y']⟩]).results.getD 0
        default).verdict ≠ Verdict.AC ∧
    ((judge (fun _ => okRun ['x']) [⟨[], ['y']⟩]).overallVerdict =
      ((judge (fun _ => okRun ['x']) [⟨[], ['y']⟩]).results.getD 0
        default).verdict ∧
     (judge (fun _ => okRun ['x']) [⟨[], ['y']⟩]).firstFailedTestCase =
       some 1) :=
  ⟨by decide,
   C10_first_failure (fun _ => okRun ['x']) [⟨[], ['y']⟩] 0 (by decide)
     (fun j hj => absurd hj (Nat.not_lt_zero j)) (by decide)⟩

theorem getVerdict_of_ne_OK (r : RunResult) (e : Str) (h : r.verdict ≠ .OK) :
    getVerdict r e = r.verdict := by
  unfold getVerdict
  rw [if_pos h]

theorem getVerdict_ne_skipped (r : RunResult) (e : Str)
    (h : r.verdict ≠ .SKIPPED) : getVerdict r e ≠ .SKIPPED := by
  unfold getVerdict
  split_ifs with h1 h2
  · exact h
  · decide
  · decide

theorem skippedTail_countP (tcs : List TestCase) (j : Nat) :
    (skippedTail tcs j).countP (fun r => decide (r.verdict ≠ .SKIPPED)) = 0 := by
  rw [List.countP_eq_zero]
  intro r hr
  have := skippedTail_verdict tcs j hr
  simp [this]

theorem judgeLoop_launches (exec : Nat → RunResult)
    (hs : ∀ n, (exec n).verdict ≠ .SKIPPED) (tcs : List TestCase) :
    ∀ (i : Nat) (st : LoopSt),
    (judgeLoop exec tcs i st).launches =
      (judgeLoop exec tcs i st).results.countP
        (fun r => decide (r.verdict ≠ .SKIPPED)) := by
  induction tcs with
  | nil => intro i st; simp [judgeLoop_nil]
  | cons tc rest ih =>
    intro i st
    have hent : (mkEntry (exec i) tc i).verdict ≠ .SKIPPED := by
      rw [mkEntry_verdict]
      exact getVerdict_ne_skipped (exec i) tc.expectedOutput (hs i)
    by_cases hce : getVerdict (exec i) tc.expectedOutput = .CE
    · rw [judgeLoop_cons_ce rest st hce]
      dsimp only
      rw [List.countP_cons_of_pos _ _ (by simpa using hent), skippedTail_countP]
    · rw [judgeLoop_cons_ne rest st hce]
      dsimp only
      rw [List.countP_cons_of_pos _ _ (by simpa using hent), ih (i + 1)]

/-- C1 counterexample: a judge submission with two test cases (both
succeeding) performs two executor calls — two sandbox launches, each
compiling afresh — not one for the whole submission. -/
theorem C1_counterexample :
    (judge (fun _ => okRun []) [⟨[], []⟩, ⟨[], []⟩]).launches = 2 ∧
    (2 : Nat) ≠ 1 := by
  refine ⟨?_, by decide⟩
  decide

/-- C1 (amended): the judge launches one sandboxed execution environment per
executed (non-skipped) test case — the executor is called once per test
case, and each call passes the Docker sandbox only the language and the
per-case time limit (the last two arguments after the image), never the
test-case count. -/
theorem C1_per_case_launches (exec : Nat → RunResult)
    (testCases : List TestCase) (hs : ∀ n, (exec n).verdict ≠ .SKIPPED) :
    (judge exec testCases).launches =
      (judge exec testCases).results.countP
        (fun r => decide (r.verdict ≠ .SKIPPED)) ∧
    ∀ (m t : Nat) (w l img : Str),
      (dockerArgs m t w l img).drop 16 = [l, (toString t).toList] := by
  constructor
  · unfold judge
    dsimp only
    exact judgeLoop_launches exec hs testCases 0 ⟨.AC, none, 0, 0⟩
  · intro m t w l img
    rfl

/-- C1 witness: the amended theorem evaluated on a two-case all-OK
submission: two launches, one per executed case. -/
theorem C1_per_case_launches_witness :
    (∀ n : Nat, ((fun _ => okRun []) n : RunResult).verdict ≠
      Verdict.SKIPPED) ∧
    (judge (fun _ => okRun []) [⟨[], []⟩, ⟨[], []⟩]).launches =
      (judge (fun _ => okRun []) [⟨[], []⟩, ⟨[], []⟩]).results.countP
        (fun r => decide (r.verdict ≠ Verdict.SKIPPED)) :=
  ⟨fun _ => show (okRun []).verdict ≠ Verdict.SKIPPED by decide,
   (C1_per_case_launches (fun _ => okRun []) [⟨[], []⟩, ⟨[], []⟩]
     (fun _ => show (okRun []).verdict ≠ Verdict.SKIPPED by decide)).1⟩

/-- C4 counterexample: on a two-case submission whose code fails to compile,
the second per-case entry has verdict `SKIPPED` — a tag outside the claimed
closed verdict set — not `CE` (the passed count is 0, as claimed). -/
theorem C4_counterexample :
    ((judge (fun _ => ceRun) [⟨[], []⟩, ⟨[], []⟩]).results.map
      (fun r => r.verdict)) = [Verdict.CE, Verdict.SKIPPED] ∧
    Verdict.SKIPPED ≠ Verdict.CE ∧
    (judge (fun _ => ceRun) [⟨[], []⟩, ⟨[], []⟩]).passed = 0 := by
  refine ⟨?_, by decide, ?_⟩ <;> decide

/-- C4 (amended): when the code fails to compile (the executor returns `CE`
for the first case), the overall verdict is `CE`, the first per-case entry is
`CE`, every later entry is `SKIPPED`, and the passed count is 0. -/
theorem C4_compile_error (exec : Nat → RunResult) (tc0 : TestCase)
    (rest : List TestCase) (hce : (exec 0).verdict = .CE) :
    (judge exec (tc0 :: rest)).overallVerdict = .CE ∧
    (judge exec (tc0 :: rest)).passed = 0 ∧
    ((judge exec (tc0 :: rest)).results.getD 0 default).verdict = .CE ∧
    ∀ r ∈ (judge exec (tc0 :: rest)).results.tail,
      r.verdict = .SKIPPED := by
  have hgv : getVerdict (exec 0) tc0.expectedOutput = .CE := by
    rw [getVerdict_of_ne_OK (exec 0) tc0.expectedOutput (by rw [hce]; decide)]
    exact hce
  unfold judge
  dsimp only
  rw [judgeLoop_cons_ce rest _ hgv]
  dsimp only
  refine ⟨?_, ?_, ?_, ?_⟩
  · rw [stepSt_overall, if_pos ⟨by rw [hgv]; decide, rfl⟩]
    exact hgv
  · rw [List.countP_cons_of_neg, List.countP_eq_zero]
    · intro r hr
      have := skippedTail_verdict rest 1 hr
      simp [this]
    · simp [mkEntry_verdict, hgv]
  · rw [List.getD_cons_zero, mkEntry_verdict]
    exact hgv
  · intro r hr
    exact skippedTail_verdict rest 1 hr

/-- C4 witness: the amended theorem evaluated on a concrete two-case
submission with a compilation error. -/
theorem C4_compile_error_witness :
    (ceRun.verdict = Verdict.CE) ∧
    ((judge (fun _ => ceRun) [⟨[], []⟩, ⟨[], []⟩]).overallVerdict =
      Verdict.CE ∧
     (judge (fun _ => ceRun) [⟨[], []⟩, ⟨[], []⟩]).passed = 0) :=
  ⟨rfl,
   ((C4_compile_error (fun _ => ceRun) ⟨[], []⟩ [⟨[], []⟩] rfl).1),
   ((C4_compile_error (fun _ => ceRun) ⟨[], []⟩ [⟨[], []⟩] rfl).2.1)⟩

/-- C7 counterexample: `cleanup` (file.util.js lines 56-62) wraps `fs.rm` in
a try/catch that swallows failures, so when the removal fails the work
directory outlives the call: here a successful execution whose final
`fs.rm` fails leaves the directory in place after the executor returns. -/
theorem C7_counterexample :
    (execute (("cpp").toList)
      ⟨.ok (), .ok (), .ok (), ⟨false, false, 0, [], []⟩, [], [],
       some .OK, 1, 0, some 0, 1, false⟩).workDirExists = true := by
  rfl

/-- C7 (amended): cleanup of the work directory is attempted on every path
that created it — normal return, IE result, or exception alike — and never
alters the returned result; whenever the underlying `fs.rm` succeeds, no
work directory exists after the call.  Only a swallowed `fs.rm` failure can
leave the directory behind. -/
theorem C7_cleanup_always_attempted :
    (∀ (language : Str) (env : ExecEnv), env.rmOk = true →
      (execute language env).workDirExists = false) ∧
    (∀ (language : Str) (inputs : List Str) (env : ProcEnv), env.rmOk = true →
      (batchExecute language inputs env).workDirExists = false) ∧
    (∀ (language : Str) (env : ExecEnv) (b : Bool),
      (execute language { env with rmOk := b }).ret =
        (execute language env).ret) ∧
    (∀ (language : Str) (inputs : List Str) (env : ProcEnv) (b : Bool),
      (batchExecute language inputs { env with rmOk := b }).ret =
        (batchExecute language inputs env).ret) := by
  refine ⟨?_, ?_, ?_, ?_⟩
  · intro language env h
    rcases env with ⟨cw, wf, ch, d, o, s, mv, mt, mm, me, wt, rm⟩
    simp only at h
    subst h
    by_cases hl : language ∉ LANGUAGES
    · simp [execute, hl]
    · cases cw <;> cases wf <;> cases ch <;> simp [execute, hl, cleanup]
  · intro language inputs env h
    rcases env with ⟨cw, wc, cp, cpt, runs, rt, rm⟩
    simp only at h
    subst h
    by_cases hl : language ∉ LANGUAGES
    · simp [batchExecute, hl]
    · cases cw <;> cases wc <;> cases cp <;> simp [batchExecute, hl, cleanup]
  · intro language env b
    rcases env with ⟨cw, wf, ch, d, o, s, mv, mt, mm, me, wt, rm⟩
    by_cases hl : language ∉ LANGUAGES
    · simp [execute, hl]
    · cases cw <;> cases wf <;> cases ch <;> simp [execute, hl]
  · intro language inputs env b
    rcases env with ⟨cw, wc, cp, cpt, runs, rt, rm⟩
    by_cases hl : language ∉ LANGUAGES
    · simp [batchExecute, hl]
    · cases cw <;> cases wc <;> cases cp <;> simp [batchExecute, hl]

/-- C7 witness: the amended theorem evaluated at a successful execution
whose `fs.rm` succeeds: the work directory is gone after the call. -/
theorem C7_cleanup_always_attempted_witness :
    ((⟨.ok (), .ok (), .ok (), ⟨false, false, 0, [], []⟩, [], [],
       some .OK, 1, 0, some 0, 1, true⟩ : ExecEnv).rmOk = true) ∧
    (execute (("cpp").toList)
      ⟨.ok (), .ok (), .ok (), ⟨false, false, 0, [], []⟩, [], [],
       some .OK, 1, 0, some 0, 1, true⟩).workDirExists = false :=
  ⟨rfl,
   C7_cleanup_always_attempted.1 (("cpp").toList)
     ⟨.ok (), .ok (), .ok (), ⟨false, false, 0, [], []⟩, [], [],
      some .OK, 1, 0, some 0, 1, true⟩ rfl⟩

/-- C6 counterexample: `createWorkDir` runs before the `try` block in
`ExecutorService.execute` (executor.service.js line 55), so an exception
thrown there — after language validation — propagates past the executor
boundary instead of being converted to an `IE` result. -/
theorem C6_counterexample :
    (execute (("cpp").toList)
      ⟨.error (("disk full").toList), .ok (), .ok (),
       ⟨false, false, 0, [], []⟩, [], [], none, 0, 0, none, 0, true⟩).ret =
    Except.error (("disk full").toList) := by
  rfl

/-- C6 (amended): for a valid language, any exception raised inside the `try`
block — that is, after the work directory has been created — is caught:
`execute` returns a single `IE` result and `batchExecute` one `IE` entry per
input, each carrying `Internal Error: ` plus the exception message, and
neither ever throws from within the `try`; but an exception from
`createWorkDir` itself (which runs before the `try`) propagates. -/
theorem C6_ie_after_workdir :
    (∀ (language : Str) (env : ExecEnv), language ∈ LANGUAGES →
      env.createWorkDir = .ok () →
      ∃ r, (execute language env).ret = Except.ok r) ∧
    (∀ (language : Str) (env : ExecEnv) (e : Str), language ∈ LANGUAGES →
      env.createWorkDir = .ok () → env.writeFiles = .error e →
      (execute language env).ret = Except.ok (ieResult e)) ∧
    (∀ (language : Str) (env : ExecEnv) (e : Str), language ∈ LANGUAGES →
      env.createWorkDir = .ok () → env.writeFiles = .ok () →
      env.chmod = .error e →
      (execute language env).ret = Except.ok (ieResult e)) ∧
    (∀ (language : Str) (inputs : List Str) (env : ProcEnv),
      language ∈ LANGUAGES → env.createWorkDir = .ok () →
      ∃ rs, (batchExecute language inputs env).ret = Except.ok rs ∧
        rs.length = inputs.length) ∧
    (∀ (language : Str) (inputs : List Str) (env : ProcEnv) (e : Str),
      language ∈ LANGUAGES → env.createWorkDir = .ok () →
      env.writeCode = .error e →
      (batchExecute language inputs env).ret =
        Except.ok (inputs.map fun _ => pIeResult e)) := by
  refine ⟨?_, ?_, ?_, ?_, ?_⟩
  · intro language env hl hcw
    rcases env with ⟨cw, wf, ch, d, o, s, mv, mt, mm, me, wt, rm⟩
    simp only at hcw
    subst hcw
    cases wf <;> cases ch <;> simp [execute, hl]
  · intro language env e hl hcw hwf
    rcases env with ⟨cw, wf, ch, d, o, s, mv, mt, mm, me, wt, rm⟩
    simp only at hcw hwf
    subst hcw
    subst hwf
    simp [execute, hl]
  · intro language env e hl hcw hwf hch
    rcases env with ⟨cw, wf, ch, d, o, s, mv, mt, mm, me, wt, rm⟩
    simp only at hcw hwf hch
    subst hcw
    subst hwf
    subst hch
    simp [execute, hl]
  · intro language inputs env hl hcw
    rcases env with ⟨cw, wc, cp, cpt, runs, rt, rm⟩
    simp only at hcw
    subst hcw
    cases wc <;> cases cp <;> simp [batchExecute, hl]
  · intro language inputs env e hl hcw hwc
    rcases env with ⟨cw, wc, cp, cpt, runs, rt, rm⟩
    simp only at hcw hwc
    subst hcw
    subst hwc
    simp [batchExecute, hl]

/-- C6 witness: the amended theorem evaluated at a concrete failing write
inside the `try` of `execute`: the call returns an `IE` result carrying the
message rather than throwing. -/
theorem C6_ie_after_workdir_witness :
    (("cpp").toList ∈ LANGUAGES) ∧
    (execute (("cpp").toList)
      ⟨.ok (), .error (("EACCES").toList), .ok (),
       ⟨false, false, 0, [], []⟩, [], [], none, 0, 0, none, 0, true⟩).ret =
      Except.ok (ieResult (("EACCES").toList)) :=
  ⟨by decide,
   C6_ie_after_workdir.2.1 (("cpp").toList)
     ⟨.ok (), .error (("EACCES").toList), .ok (),
      ⟨false, false, 0, [], []⟩, [], [], none, 0, 0, none, 0, true⟩
     (("EACCES").toList) (by decide) rfl rfl⟩

/-- C3: the per-case comparator: a non-OK executor verdict is returned
unchanged; for an OK verdict both outputs are normalised — and the source
normalisation coincides with that of the specification (CRLF→LF, right-strip each
line, right-strip the whole string) — and the verdict is `AC` exactly when
the normalised strings are equal, `WA` otherwise. -/
theorem C3_verdict_comparator :
    (∀ s : Str, normalizeOut s = specNormalize s) ∧
    (∀ (r : RunResult) (e : Str), r.verdict ≠ .OK → getVerdict r e = r.verdict) ∧
    (∀ (r : RunResult) (e : Str), r.verdict = .OK →
      ((getVerdict r e = .AC ↔ normalizeOut r.output = normalizeOut e) ∧
       (getVerdict r e = .AC ∨ getVerdict r e = .WA))) := by
  refine ⟨?_, fun r e h => getVerdict_of_ne_OK r e h, ?_⟩
  · intro s
    by_cases h : s = []
    · subst h; rfl
    · simp [normalizeOut, specNormalize, h]
  · intro r e h
    unfold getVerdict
    rw [if_neg (by simp [h])]
    by_cases hn : normalizeOut r.output = normalizeOut e
    · rw [if_pos hn]
      exact ⟨⟨fun _ => hn, fun _ => rfl⟩, Or.inl rfl⟩
    · rw [if_neg hn]
      exact ⟨⟨fun hw => absurd hw (by decide), fun hc => absurd hc hn⟩,
        Or.inr rfl⟩

/-- C3 witness: a `TLE` executor verdict propagates unchanged, and an OK run
whose output differs from the expected only by CRLF line endings and
trailing blanks is judged `AC`. -/
theorem C3_verdict_comparator_witness :
    ((⟨Verdict.TLE, [], [], 0, 0, 0, 0⟩ : RunResult).verdict ≠ Verdict.OK) ∧
    getVerdict ⟨Verdict.TLE, [], [], 0, 0, 0, 0⟩ [] = Verdict.TLE ∧
    getVerdict (okRun (("a \r\nb ").toList)) (("a\nb").toList) =
      Verdict.AC :=
  ⟨by decide,
   C3_verdict_comparator.2.1 ⟨Verdict.TLE, [], [], 0, 0, 0, 0⟩ []
     (by decide),
   ((C3_verdict_comparator.2.2 (okRun (("a \r\nb ").toList))
       (("a\nb").toList) rfl).1).mpr (by decide)⟩

theorem dropWhile_idem {α : Type} (p : α → Bool) (x : List α) :
    (x.dropWhile p).dropWhile p = x.dropWhile p := by
  induction x with
  | nil => rfl
  | cons a t ih =>
    by_cases hpa : p a
    · simp [List.dropWhile_cons_of_pos hpa, ih]
    · simp [List.dropWhile_cons_of_neg hpa, hpa]

theorem lastNotWs_of_trimE (l : Str) (c : Char)
    (h : (jsTrimEnd l).getLast? = some c) : jsWhitespace c = false := by
  have h2 := List.head?_dropWhile_not jsWhitespace l.reverse
  rw [← List.head?_reverse] at h
  unfold jsTrimEnd at h
  rw [List.reverse_reverse] at h
  rw [h] at h2
  exact h2

theorem goodLine_lastNotWs {t : Str} (h : jsTrimEnd t = t) (c : Char)
    (hc : t.getLast? = some c) : jsWhitespace c = false := by
  apply lastNotWs_of_trimE t c
  rw [h]
  exact hc

theorem trimE_subset {l : Str} {a : Char} (h : a ∈ jsTrimEnd l) : a ∈ l := by
  unfold jsTrimEnd at h
  rw [List.mem_reverse] at h
  exact List.mem_reverse.mp (List.Sublist.subset (List.dropWhile_sublist _) h)

theorem trimE_append_pos (x : Str) (c : Char) (h : jsWhitespace c = true) :
    jsTrimEnd (x ++ [c]) = jsTrimEnd x := by
  simp [jsTrimEnd, h]

theorem trimE_append_of_last (x t : Str) (hne : t ≠ [])
    (hlast : ∀ c, t.getLast? = some c → jsWhitespace c = false) :
    jsTrimEnd (x ++ t) = x ++ t := by
  obtain ⟨c, t2, ht⟩ : ∃ c t2, t.reverse = c :: t2 := by
    cases htr : t.reverse with
    | nil => exact absurd (List.reverse_eq_nil_iff.mp htr) hne
    | cons c t2 => exact ⟨c, t2, rfl⟩
  have hc : t.getLast? = some c := by
    rw [← List.head?_reverse, ht]; rfl
  have hw := hlast c hc
  unfold jsTrimEnd
  rw [List.reverse_append, ht, List.cons_append,
    List.dropWhile_cons_of_neg (by simp [hw]), ← List.cons_append, ← ht,
    ← List.reverse_append, List.reverse_reverse]

theorem splitNL_cons (c : Char) (rest : Str) :
    splitNL (c :: rest) =
      if c = '\n' then [] :: splitNL rest
      else
        match splitNL rest with
        | [] => [[c]]
        | h :: t => (c :: h) :: t := rfl

theorem splitNL_ne_nil (l : Str) : splitNL l ≠ [] := by
  induction l with
  | nil => simp [splitNL]
  | cons c rest ih =>
    rw [splitNL_cons]
    split_ifs with h
    · simp
    · cases hs : splitNL rest with
      | nil => simp
      | cons a t => simp

theorem splitNL_noNL (l : Str) : ∀ t ∈ splitNL l, '\n' ∉ t := by
  induction l with
  | nil =>
    intro t ht
    simp only [splitNL, List.mem_singleton] at ht
    subst ht
    simp
  | cons c rest ih =>
    intro t ht
    rw [splitNL_cons] at ht
    by_cases h : c = '\n'
    · rw [if_pos h] at ht
      rcases List.mem_cons.mp ht with h1 | h1
      · subst h1; simp
      · exact ih t h1
    · rw [if_neg h] at ht
      cases hs : splitNL rest with
      | nil => exact absurd hs (splitNL_ne_nil rest)
      | cons a s =>
        rw [hs] at ht
        dsimp only at ht
        rcases List.mem_cons.mp ht with h1 | h1
        · subst h1
          intro hmem
          rcases List.mem_cons.mp hmem with h2 | h2
          · exact h h2.symm
          · exact ih a (hs ▸ List.mem_cons_self a s) h2
        · exact ih t (hs ▸ List.mem_cons.mpr (Or.inr h1))

theorem join_split (l : Str) : joinNL (splitNL l) = l := by
  induction l with
  | nil => rfl
  | cons c rest ih =>
    rw [splitNL_cons]
    by_cases h : c = '\n'
    · rw [if_pos h]
      cases hs : splitNL rest with
      | nil => exact absurd hs (splitNL_ne_nil rest)
      | cons a s =>
        rw [h]
        show '\n' :: joinNL (a :: s) = '\n' :: rest
        rw [← hs, ih]
    · rw [if_neg h]
      cases hs : splitNL rest with
      | nil => exact absurd hs (splitNL_ne_nil rest)
      | cons a s =>
        rw [hs] at ih
        cases s with
        | nil =>
          show c :: a = c :: rest
          have ha : a = rest := ih
          rw [ha]
        | cons b s2 =>
          show (c :: a) ++ '\n' :: joinNL (b :: s2) = c :: rest
          have ha : a ++ '\n' :: joinNL (b :: s2) = rest := ih
          rw [List.cons_append, ha]

theorem splitNL_of_noNL (t : Str) (hn : '\n' ∉ t) : splitNL t = [t] := by
  induction t with
  | nil => rfl
  | cons c rest ih =>
    have hc : c ≠ '\n' := fun h => hn (by rw [h]; exact List.mem_cons_self _ _)
    have hn2 : '\n' ∉ rest := fun h => hn (List.mem_cons.mpr (Or.inr h))
    rw [splitNL_cons, if_neg hc, ih hn2]

theorem splitNL_append (t z : Str) (hn : '\n' ∉ t) :
    splitNL (t ++ '\n' :: z) = t :: splitNL z := by
  induction t with
  | nil =>
    rw [List.nil_append, splitNL_cons, if_pos rfl]
  | cons c t2 ih =>
    have hc : c ≠ '\n' := fun h => hn (by rw [h]; exact List.mem_cons_self _ _)
    have hn2 : '\n' ∉ t2 := fun h => hn (List.mem_cons.mpr (Or.inr h))
    rw [List.cons_append, splitNL_cons, if_neg hc, ih hn2]

theorem split_join (ts : List Str) (hne : ts ≠ [])
    (hn : ∀ t ∈ ts, '\n' ∉ t) : splitNL (joinNL ts) = ts := by
  induction ts with
  | nil => exact absurd rfl hne
  | cons t ts2 ih =>
    cases ts2 with
    | nil => exact splitNL_of_noNL t (hn t (List.mem_cons_self _ _))
    | cons b ts3 =>
      show splitNL (t ++ '\n' :: joinNL (b :: ts3)) = t :: b :: ts3
      rw [splitNL_append t _ (hn t (List.mem_cons_self _ _)),
        ih (by simp) (fun u hu => hn u (List.mem_cons.mpr (Or.inr hu)))]

theorem joinNL_append_single (ls : List Str) (t : Str) :
    joinNL (ls ++ [t]) = if ls = [] then t else joinNL ls ++ '\n' :: t := by
  induction ls with
  | nil => simp [joinNL]
  | cons a ls2 ih =>
    rw [List.cons_append]
    cases ls2 with
    | nil => simp [joinNL]
    | cons b ls3 =>
      show a ++ '\n' :: joinNL ((b :: ls3) ++ [t]) = _
      rw [ih]
      simp [joinNL, List.append_assoc]

theorem rcrlf_cons₂ (c1 c2 : Char) (rest : Str) :
    replaceCRLF (c1 :: c2 :: rest) =
      if c1 = '\r' ∧ c2 = '\n' then '\n' :: replaceCRLF rest
      else c1 :: replaceCRLF (c2 :: rest) := by
  rfl

theorem rcrlf_cons_not_cr (c : Char) (rest : Str) (h : c ≠ '\r') :
    replaceCRLF (c :: rest) = c :: replaceCRLF rest := by
  cases rest with
  | nil => rfl
  | cons c2 r2 => rw [rcrlf_cons₂, if_neg (fun hc => h hc.1)]

theorem rcrlf_append (t z : Str) (hn : '\n' ∉ t)
    (hr : ∀ c, t.getLast? = some c → c ≠ '\r') :
    replaceCRLF (t ++ z) = t ++ replaceCRLF z := by
  induction t with
  | nil => rfl
  | cons a t2 ih =>
    cases t2 with
    | nil =>
      have ha : a ≠ '\r' := hr a rfl
      rw [List.cons_append, List.nil_append,
        rcrlf_cons_not_cr a z ha]
      rfl
    | cons b t3 =>
      have hb : b ≠ '\n' := by
        intro heq
        apply hn
        rw [← heq]
        exact List.mem_cons.mpr (Or.inr (List.mem_cons_self _ _))
      rw [List.cons_append, List.cons_append, rcrlf_cons₂,
        if_neg (fun hc => hb hc.2), ← List.cons_append,
        ih (fun h => hn (List.mem_cons.mpr (Or.inr h)))
          (fun c hc => hr c (by rw [List.getLast?_cons_cons]; exact hc))]
      simp

theorem rcrlf_join (ts : List Str)
    (hgood : ∀ t ∈ ts, jsTrimEnd t = t)
    (hn : ∀ t ∈ ts, '\n' ∉ t) :
    replaceCRLF (joinNL ts) = joinNL ts := by
  induction ts with
  | nil => rfl
  | cons t ts2 ih =>
    have hlast : ∀ c, t.getLast? = some c → c ≠ '\r' := by
      intro c hc heq
      have hw := goodLine_lastNotWs (hgood t (List.mem_cons_self _ _)) c hc
      rw [heq] at hw
      simp [jsWhitespace] at hw
    cases ts2 with
    | nil =>
      show replaceCRLF t = t
      have h := rcrlf_append t [] (hn t (List.mem_cons_self _ _)) hlast
      simpa [replaceCRLF] using h
    | cons b ts3 =>
      show replaceCRLF (t ++ '\n' :: joinNL (b :: ts3)) =
        t ++ '\n' :: joinNL (b :: ts3)
      rw [rcrlf_append t _ (hn t (List.mem_cons_self _ _)) hlast]
      congr 1
      rw [rcrlf_cons_not_cr _ _ (by decide)]
      rw [ih (fun u hu => hgood u (List.mem_cons.mpr (Or.inr hu)))
        (fun u hu => hn u (List.mem_cons.mpr (Or.inr hu)))]

theorem truncT_append_empty (ls : List Str) :
    truncTrailing (ls ++ [([] : Str)]) = truncTrailing ls := by
  simp [truncTrailing, List.dropWhile_cons]

theorem truncT_append_nonempty (ls : List Str) (t : Str) (h : t ≠ []) :
    truncTrailing (ls ++ [t]) = ls ++ [t] := by
  simp [truncTrailing, List.dropWhile_cons, h]

theorem truncT_idem (ls : List Str) :
    truncTrailing (truncTrailing ls) = truncTrailing ls := by
  simp [truncTrailing, List.reverse_reverse, dropWhile_idem]

theorem truncT_subset (ls : List Str) (t : Str)
    (h : t ∈ truncTrailing ls) : t ∈ ls := by
  unfold truncTrailing at h
  rw [List.mem_reverse] at h
  exact List.mem_reverse.mp (List.Sublist.subset (List.dropWhile_sublist _) h)

theorem trimE_joinNL (ls : List Str) :
    (∀ t ∈ ls, jsTrimEnd t = t) →
    jsTrimEnd (joinNL ls) = joinNL (truncTrailing ls) := by
  induction ls using List.reverseRecOn with
  | nil => intro _; rfl
  | append_singleton ls2 t ih =>
    intro hgood
    rw [joinNL_append_single]
    by_cases hls : ls2 = []
    · rw [if_pos hls]
      subst hls
      by_cases ht : t = []
      · subst ht; rfl
      · have h1 : truncTrailing ([] ++ [t]) = [] ++ [t] :=
          truncT_append_nonempty [] t ht
        rw [List.nil_append] at h1
        rw [List.nil_append, h1]
        exact hgood t (by simp)
    · rw [if_neg hls]
      by_cases ht : t = []
      · subst ht
        rw [show ('\n' :: ([] : Str)) = ['\n'] from rfl,
          trimE_append_pos (joinNL ls2) '\n' (by decide),
          ih (fun u hu => hgood u (List.mem_append_left _ hu)),
          truncT_append_empty]
      · have hg : jsTrimEnd t = t :=
          hgood t (List.mem_append_right _ (List.mem_singleton_self t))
        rw [truncT_append_nonempty ls2 t ht, joinNL_append_single, if_neg hls]
        have h := trimE_append_of_last (joinNL ls2 ++ ['\n']) t ht
          (fun c hc => goodLine_lastNotWs hg c hc)
        simpa [List.append_assoc] using h

theorem normalizeOut_fixed (ts : List Str)
    (hgood : ∀ t ∈ ts, jsTrimEnd t = t)
    (hnl : ∀ t ∈ ts, '\n' ∉ t)
    (hfix : truncTrailing ts = ts) :
    normalizeOut (joinNL ts) = joinNL ts := by
  by_cases hm : joinNL ts = []
  · rw [hm]; rfl
  · have hts : ts ≠ [] := by
      intro h
      rw [h] at hm
      exact hm rfl
    simp only [normalizeOut, if_neg hm]
    rw [rcrlf_join ts hgood hnl, split_join ts hts hnl]
    have hmap : ts.map jsTrimEnd = ts := by
      have h1 : ts.map jsTrimEnd = ts.map id :=
        List.map_congr_left (fun a ha => hgood a ha)
      rw [h1, List.map_id]
    rw [hmap, trimE_joinNL ts hgood, hfix]

/-- C9: the output-normalisation function of the verdict engine is
idempotent: normalising an already-normalised string changes nothing. -/
theorem C9_normalize_idempotent (s : Str) :
    normalizeOut (normalizeOut s) = normalizeOut s := by
  by_cases hs : s = []
  · subst hs; rfl
  · have hgood_ls : ∀ t ∈ (splitNL (replaceCRLF s)).map jsTrimEnd,
        jsTrimEnd t = t := by
      intro t ht
      obtain ⟨u, hu, rfl⟩ := List.mem_map.mp ht
      exact jsTrimEnd_idem u
    have hnl_ls : ∀ t ∈ (splitNL (replaceCRLF s)).map jsTrimEnd,
        '\n' ∉ t := by
      intro t ht
      obtain ⟨u, hu, rfl⟩ := List.mem_map.mp ht
      intro hmem
      exact splitNL_noNL (replaceCRLF s) u hu (trimE_subset hmem)
    have hnorm : normalizeOut s =
        joinNL (truncTrailing ((splitNL (replaceCRLF s)).map jsTrimEnd)) := by
      simp only [normalizeOut, if_neg hs]
      exact trimE_joinNL _ hgood_ls
    rw [hnorm]
    exact normalizeOut_fixed _
      (fun t ht => hgood_ls t (truncT_subset _ t ht))
      (fun t ht => hnl_ls t (truncT_subset _ t ht))
      (truncT_idem _)

end CodeExec
